import Mathlib

/-! Verification development for the inline autocomplete engine of
`src/vs/workbench/contrib/void/browser/autocompleteService.ts`.

The TypeScript source is shallowly embedded over `List Char` (JS strings are
sequences of UTF-16 units; all inputs of interest here are plain characters).
Unless the doc comment of a definition says otherwise, every definition below
is a direct transcription of the correspondingly named TypeScript function.

The source chooses its line-break symbol `_ln` from `isWindows` (CRLF on
Windows, LF otherwise).  This development models the non-Windows (LF)
platform; `getPfxAndSfxInfo` is the one place where the separator matters for
a claim, so there the separator is an explicit parameter.

Naming note: the reserved Lean tokens for the source field names prefix and
suffix cannot be used as identifiers, so they appear here as `pfx`/`sfx`
(and `llmPrefix` as `llmPfx`, etc.). -/

/-- The JS whitespace characters relevant to `\s`, `trim`, `trimEnd` for the
ASCII inputs handled by this service: space, tab, LF, CR, vertical tab,
form feed. -/
def isJsWs (c : Char) : Bool :=
  c == ' ' || c == '\t' || c == '\n' || c == '\x0d' || c == '\x0b' || c == '\x0c'

/-- JS `String.prototype.trimEnd`. -/
def jsTrimEnd (s : List Char) : List Char :=
  (s.reverse.dropWhile isJsWs).reverse

/-- JS `String.prototype.trim` (both ends). -/
def jsTrim (s : List Char) : List Char :=
  jsTrimEnd (s.dropWhile isJsWs)

/-- `removeAllWhitespace` from the source: replace every whitespace run by
nothing (the global whitespace regex). -/
def removeAllWhitespace (s : List Char) : List Char :=
  s.filter (fun c => !isJsWs c)

/-- JS split at the newline character (the LF instantiation of the source
split at `_ln`): fields between occurrences of the separator; splitting the
empty text yields one empty field. -/
def splitNl : List Char → List (List Char)
  | [] => [[]]
  | c :: rest =>
    if c = '\n' then [] :: splitNl rest
    else
      match splitNl rest with
      | l :: ls => (c :: l) :: ls
      | [] => [[c]]

/-- JS `join('\n')`, the inverse direction of `splitNl`. -/
def joinNl : List (List Char) → List Char
  | [] => []
  | [l] => l
  | l :: ls => l ++ '\n' :: joinNl ls

/-- First index at which `p` holds (JS `search`/`indexOf` over a character
class), `none` for JS `-1`. -/
def firstIdxWhere (p : Char → Bool) : List Char → Option Nat
  | [] => none
  | c :: rest => if p c then some 0 else (firstIdxWhere p rest).map (· + 1)

/-- JS `String.prototype.lastIndexOf` for a single-character needle,
`none` for `-1`. -/
def lastIdxOfChar (c : Char) : List Char → Option Nat
  | [] => none
  | x :: rest =>
    match lastIdxOfChar c rest with
    | some i => some (i + 1)
    | none => if x = c then some 0 else none

/-- Helper for `indexOfSub`: index (counting from `i`) of the first position
where `pat` is a prefix of the remaining text. -/
def indexOfSubGo (pat : List Char) : List Char → Nat → Option Nat
  | [], i => if pat.isPrefixOf [] then some i else none
  | s@(_ :: rest), i => if pat.isPrefixOf s then some i else indexOfSubGo pat rest (i + 1)

/-- JS `String.prototype.indexOf` for a substring needle, `none` for `-1`. -/
def indexOfSub (pat s : List Char) : Option Nat :=
  indexOfSubGo pat s 0

/-- Fuel-driven worker for `splitOnSep`. -/
def splitOnSepGo (sep : List Char) : Nat → List Char → List (List Char)
  | 0, s => [s]
  | fuel + 1, s =>
    match indexOfSub sep s with
    | none => [s]
    | some i => s.take i :: splitOnSepGo sep fuel (s.drop (i + sep.length))

/-- JS `String.prototype.split` for a nonempty string separator (used with
the platform line break `_ln`, which is CRLF on Windows). -/
def splitOnSep (sep s : List Char) : List (List Char) :=
  splitOnSepGo sep (s.length + 1) s

/-- `s.slice(toDrop)` keeping only the last `n` list elements
(JS `slice(-n)` on an array). -/
def takeLast (n : Nat) (l : List (List Char)) : List (List Char) :=
  l.drop (l.length - n)

/-- The multiline regex replacement in `removeLeftTabsAndTrimEnds` that
deletes leading whitespace: removes every maximal whitespace run that starts
at the beginning of a line.  The Boolean argument tracks whether the scan is
at a line start (start of string or just after a newline). -/
def stripLineLeadingWsGo : Bool → List Char → List Char
  | _, [] => []
  | atLineStart, c :: rest =>
    if atLineStart && isJsWs c then stripLineLeadingWsGo true rest
    else c :: stripLineLeadingWsGo (c = '\n') rest

/-- `removeLeftTabsAndTrimEnds` from the source (LF platform): trims the end
down to at most a single trailing newline, then strips leading whitespace of
every line. -/
def removeLeftTabsAndTrimEnds (s : List Char) : List Char :=
  let trimmedString := jsTrimEnd s
  let trailingEnd := s.drop trimmedString.length
  let s1 := if trailingEnd.any (fun c => c = '\n') then trimmedString ++ ['\n'] else s
  stripLineLeadingWsGo true s1

/-- `getLastLine` from the source: the regex `[^\n]*$`, i.e. the longest
suffix containing no newline (LF platform). -/
def getLastLine (s : List Char) : List Char :=
  (s.reverse.takeWhile (fun c => !(c = '\n'))).reverse

/-! The LRU cache (`class LRUCache<K, V>`).

The JS `Map` is modelled as an insertion-ordered association list (JS `Map`
iterates in insertion order and holds at most one entry per key).  The
disposal callback is not a function value here: each mutating operation
returns the list of `(key, value)` pairs the callback was invoked on, in
invocation order (the callback always fires before the entry is removed). -/

/-- JS `Map.prototype.has`. -/
def mapHas {K V : Type} [DecidableEq K] (items : List (K × V)) (k : K) : Bool :=
  items.any (fun p => p.1 = k)

/-- JS `Map.prototype.get` (`none` for `undefined`). -/
def mapGet {K V : Type} [DecidableEq K] (items : List (K × V)) (k : K) : Option V :=
  (items.find? (fun p => p.1 = k)).map (fun p => p.2)

/-- JS `Map.prototype.set`: replaces the value in place if the key exists
(keeping its position), else appends. -/
def mapSet {K V : Type} [DecidableEq K] (items : List (K × V)) (k : K) (v : V) :
    List (K × V) :=
  if mapHas items k then items.map (fun p => if p.1 = k then (k, v) else p)
  else items ++ [(k, v)]

/-- JS `Map.prototype.delete`.  A JS `Map` holds at most one entry per key,
so removing every pair with that key is removal of the unique one. -/
def mapDelete {K V : Type} [DecidableEq K] (items : List (K × V)) (k : K) :
    List (K × V) :=
  items.filter (fun p => !(p.1 = k))

/-- The cache state: `items` (the JS `Map`), `keyOrder` (recency list, least
recently used first) and `maxSize`.  The constructor throws on
`maxSize <= 0`; claims about the cache therefore carry `0 < maxSize`. -/
structure LRUCache (K V : Type) where
  items : List (K × V)
  keyOrder : List K
  maxSize : Nat

/-- A freshly constructed cache (`new LRUCache(maxSize, ...)`). -/
def LRUCache.empty (K V : Type) (maxSize : Nat) : LRUCache K V :=
  { items := [], keyOrder := [], maxSize := maxSize }

/-- `LRUCache.has`. -/
def LRUCache.has {K V : Type} [DecidableEq K] (c : LRUCache K V) (k : K) : Bool :=
  mapHas c.items k

/-- `LRUCache.set` from the source.  Returns the updated cache and the list
of disposed entries.  Branches, in source order: existing key — drop it from
the recency list; cache full — dispose and evict the least recently used
entry (`keyOrder[0]`); then the common tail inserts the item and pushes the
key as most recently used. -/
def LRUCache.set {K V : Type} [DecidableEq K] (c : LRUCache K V) (k : K) (v : V) :
    LRUCache K V × List (K × V) :=
  let step :=
    if mapHas c.items k then
      ({ c with keyOrder := c.keyOrder.filter (fun x => !(x = k)) }, ([] : List (K × V)))
    else if c.maxSize ≤ c.items.length then
      match c.keyOrder.head? with
      | none => (c, [])
      | some k0 =>
        match mapGet c.items k0 with
        | some v0 =>
          ({ c with items := mapDelete c.items k0, keyOrder := c.keyOrder.tail }, [(k0, v0)])
        | none =>
          ({ c with items := mapDelete c.items k0, keyOrder := c.keyOrder.tail }, [])
    else (c, [])
  let c1 := step.1
  ({ c1 with items := mapSet c1.items k v, keyOrder := c1.keyOrder ++ [k] }, step.2)

/-- `LRUCache.delete` from the source: dispose and remove if present; the
Boolean is the JS return value. -/
def LRUCache.delete {K V : Type} [DecidableEq K] (c : LRUCache K V) (k : K) :
    LRUCache K V × List (K × V) × Bool :=
  match mapGet c.items k with
  | some v =>
    ({ c with items := mapDelete c.items k, keyOrder := c.keyOrder.filter (fun x => !(x = k)) },
      [(k, v)], true)
  | none => (c, [], false)

/-- A sequence of `set` calls, concatenating the disposal logs in call
order. -/
def LRUCache.setMany {K V : Type} [DecidableEq K] :
    LRUCache K V → List (K × V) → LRUCache K V × List (K × V)
  | c, [] => (c, [])
  | c, p :: ps =>
    let r1 := c.set p.1 p.2
    let r2 := r1.1.setMany ps
    (r2.1, r1.2 ++ r2.2)

/-! Autocompletion data model. -/

/-- `AutocompletionPredictionType` from the source. -/
inductive AutocompletionPredictionType where
  | singleLineFillMiddle
  | singleLineRedoSuffix
  | multiLineStartOnNextLine
  | doNotPredict
deriving DecidableEq, Repr

/-- The `status` field of an `Autocompletion`. -/
inductive AutocompletionStatus where
  | pending
  | finished
  | error
deriving DecidableEq, Repr

/-- The `Autocompletion` record from the source.  `llmPromise` is a JS
promise handle, not data, and is omitted; `endTime: number | undefined` and
`requestId: string | null` become `Option`s.  (`prefix`/`suffix`/`llmPrefix`/
`llmSuffix` are renamed `pfx`/`sfx`/`llmPfx`/`llmSfx`, see the header.) -/
structure Autocompletion where
  id : Nat
  pfx : List Char
  sfx : List Char
  llmPfx : List Char
  llmSfx : List Char
  startTime : Nat
  endTime : Option Nat
  status : AutocompletionStatus
  type : AutocompletionPredictionType
  insertText : List Char
  requestId : Option Nat
  _newlineCount : Nat
deriving DecidableEq, Repr

/-- `DEBOUNCE_TIME` from the source. -/
def DEBOUNCE_TIME : Nat := 500
/-- `TIMEOUT_TIME` from the source. -/
def TIMEOUT_TIME : Nat := 60000
/-- `MAX_CACHE_SIZE` from the source. -/
def MAX_CACHE_SIZE : Nat := 20
/-- `MAX_PENDING_REQUESTS` from the source. -/
def MAX_PENDING_REQUESTS : Nat := 2

/-- Modelled from the spec: the helper `extractCodeFromRegular` (imported
from `../common/helpers/extractCodeFromResult.js`, which is not part of this
repository snapshot).  Per §4.7 step 8 of the spec it extracts the code
from any surrounding formatting fences; text that carries no Markdown
code fence is returned unchanged.  The `recentlyAddedTextLen` argument does
not affect fence stripping and is ignored. -/
def extractCodeFromRegular (text : List Char) (_recentlyAddedTextLen : Nat) : List Char :=
  let fence : List Char := ['\x60', '\x60', '\x60']
  match splitNl text with
  | first :: rest =>
    if fence.isPrefixOf first then
      let body :=
        match rest.getLast? with
        | some last => if fence.isPrefixOf last then rest.dropLast else rest
        | none => rest
      joinNl body
    else text
  | [] => text

/-- `processStartAndEndSpaces` from the source: run the fence extraction,
then keep a single leading/trailing space around the trimmed text exactly
when the untrimmed text started/ended with a space. -/
def processStartAndEndSpaces (result : List Char) : List Char :=
  let result := extractCodeFromRegular result result.length
  let hasLeadingSpace := result.head? = some ' '
  let hasTrailingSpace := result.getLast? = some ' '
  (if hasLeadingSpace then [' '] else []) ++ jsTrim result
    ++ (if hasTrailingSpace then [' '] else [])

/-! Bracket balancing. -/

/-- Is `c` one of the opening brackets `(`, `{`, `[` (the regex `/[[({]/`)? -/
def isOpener (c : Char) : Bool :=
  c == '(' || c == '\x7b' || c == '['

/-- Is `c` one of the closing brackets `)`, `}`, `]`? -/
def isCloser (c : Char) : Bool :=
  c == ')' || c == '\x7d' || c == ']'

/-- Membership in the six bracket characters, as the source filter tests. -/
def isBracketChar (c : Char) : Bool :=
  isOpener c || isCloser c

/-- The `pairs` record from the source: the opener matching a closer. -/
def pairOf (c : Char) : Char :=
  if c == ')' then '('
  else if c == '\x7d' then '\x7b'
  else if c == ']' then '['
  else ' '

/-- One step of the source's prefix-seeding loop: push an opener; pop a
closer matching the top of the stack; push an unmatched closer.  The stack
top is the list head. -/
def seedStep (st : List Char) (b : Char) : List Char :=
  if isOpener b then b :: st
  else
    match st with
    | t :: rest => if t == pairOf b then rest else b :: st
    | [] => b :: st

/-- The seeding phase of `getStringUpToUnbalancedClosingParenthesis`:
process all brackets of the existing prefix, starting from its first
opening bracket (`prefix.search(/[[({]/)`). -/
def seedStack (pfx : List Char) : List Char :=
  match firstIdxWhere isOpener pfx with
  | none => []
  | some i => ((pfx.drop i).filter isBracketChar).foldl seedStep []

/-- The scanning loop of `getStringUpToUnbalancedClosingParenthesis`,
expressed as the index of the first unbalanced closer (where the loop does
an early return of the text up to that index), or `none` when the loop runs
off the end. -/
def goScan : List Char → List Char → Option Nat
  | _, [] => none
  | st, c :: rest =>
    if isOpener c then (goScan (c :: st) rest).map (· + 1)
    else if isCloser c then
      match st with
      | [] => some 0
      | t :: st2 => if t == pairOf c then (goScan st2 rest).map (· + 1) else some 0
    else (goScan st rest).map (· + 1)

/-- `getStringUpToUnbalancedClosingParenthesis` from the source. -/
def getStringUpToUnbalancedClosingParenthesis (s pfx : List Char) : List Char :=
  match goScan (seedStack pfx) s with
  | some i => s.take i
  | none => s

/-- Spec-side bracket step: `some` of the new stack, or `none` at an
unbalanced closer. -/
def stepStack (st : List Char) (c : Char) : Option (List Char) :=
  if isOpener c then some (c :: st)
  else if isCloser c then
    match st with
    | t :: rest => if t == pairOf c then some rest else none
    | [] => none
  else some st

/-- Spec-side: the bracket-depth stack after scanning `l` starting from
`st`, `none` if some closer in `l` was unbalanced. -/
def stackAfterScan (st : List Char) (l : List Char) : Option (List Char) :=
  l.foldlM stepStack st

/-- Spec-side (§4.6 step 5 of the spec, stated positionally): position `i`
of `s` holds a closing bracket that is unbalanced with respect to the
seeded stack `st`, i.e. every closer before it matched, and at `i` the
stack is empty or its top is not the matching opener. -/
def isUnbalancedCloserAt (st : List Char) (s : List Char) (i : Nat) : Bool :=
  isCloser (s.getD i ' ') &&
    match stackAfterScan st (s.take i) with
    | none => false
    | some st2 =>
      match st2 with
      | [] => true
      | t :: _ => !(t == pairOf (s.getD i ' '))

/-- Spec-side truncation, following the words of the spec: truncate the
completion at the first closing bracket that is unbalanced after seeding
the stack with the brackets of the prefix; leave it unchanged when no such
closer exists. -/
def specTruncateAtFirstUnbalancedCloser (pfx s : List Char) : List Char :=
  match (List.range s.length).find? (isUnbalancedCloserAt (seedStack pfx) s) with
  | some i => s.take i
  | none => s

/-! Context extraction, matchup, classifier, postprocessing. -/

/-- `PrefixAndSuffixInfo` from the source (field names per the header's
naming note). -/
structure PfxAndSfxInfo where
  pfx : List Char
  sfx : List Char
  pfxLines : List (List Char)
  sfxLines : List (List Char)
  pfxToTheLeftOfCursor : List Char
  sfxToTheRightOfCursor : List Char
deriving DecidableEq, Repr

/-- `getPrefixAndSuffixInfo` from the source.  `fullText` is the value the
editor returns for `model.getValue(EndOfLinePreference.LF)`, i.e. the
LF-normalized buffer text, and `cursorOffset` the flat offset of the cursor
in it.  `ln` is the platform line-break `_ln` (LF, or CRLF on
Windows), which the source uses for the `split` calls. -/
def getPfxAndSfxInfo (ln : List Char) (fullText : List Char) (cursorOffset : Nat) :
    PfxAndSfxInfo :=
  let p := fullText.take cursorOffset
  let s := fullText.drop cursorOffset
  let pLines := splitOnSep ln p
  let sLines := splitOnSep ln s
  { pfx := p, sfx := s, pfxLines := pLines, sfxLines := sLines,
    pfxToTheLeftOfCursor := (pLines.getLast?).getD [],
    sfxToTheRightOfCursor := sLines.headD [] }

/-- `getIndex` from the source: flat offset of line `line`, column `char`
inside `str` (LF platform).  `char` is an `Int` because the caller computes
it with JS subtraction. -/
def getIndex (str : List Char) (line : Nat) (char : Int) : Int :=
  ((joinNl ((splitNl str).take line)).length : Int)
    + (if 0 < line then (1 : Int) else 0) + char

/-- `AutocompletionMatchupBounds` from the source.  `startCharacter` and
`startIdx` are `Int` because the source computes them with JS subtraction
(they are nonnegative in every reachable case). -/
structure AutocompletionMatchupBounds where
  startLine : Nat
  startCharacter : Int
  startIdx : Int
deriving DecidableEq, Repr

/-- `getAutocompletionMatchup` from the source (LF platform).  `none` is the
source result `undefined` (no match).  The out-of-range line index in
`completionMiddleLine` is modelled with `getD _ []`; the source would
coerce `undefined` into text there, a case not reached by any theorem
below. -/
def getAutocompletionMatchup (p : List Char) (a : Autocompletion) :
    Option AutocompletionMatchupBounds :=
  let trimmedCurrentPfx := removeLeftTabsAndTrimEnds p
  let trimmedCompletionPfx := removeLeftTabsAndTrimEnds a.pfx
  let trimmedCompletionMiddle := removeLeftTabsAndTrimEnds a.insertText
  if trimmedCurrentPfx.length < trimmedCompletionPfx.length then none
  else if !(trimmedCurrentPfx.isPrefixOf (trimmedCompletionPfx ++ trimmedCompletionMiddle)) then
    none
  else
    let lineStart : Int :=
      ((splitNl trimmedCurrentPfx).length : Int) - ((splitNl trimmedCompletionPfx).length : Int)
    if lineStart < 0 then none
    else
      let currentPfxLine := getLastLine trimmedCurrentPfx
      let completionPfxLine := if lineStart = 0 then getLastLine trimmedCompletionPfx else []
      let completionMiddleLine := (splitNl a.insertText).getD lineStart.toNat []
      let fullCompletionLine := completionPfxLine ++ completionMiddleLine
      match indexOfSub currentPfxLine fullCompletionLine with
      | none => none
      | some charMatchIdx =>
        let character : Int :=
          (charMatchIdx : Int) + (currentPfxLine.length : Int) - (completionPfxLine.length : Int)
        some { startLine := lineStart.toNat,
               startCharacter := character,
               startIdx := getIndex a.insertText lineStart.toNat character }

/-- `CompletionOptions` from the source. -/
structure CompletionOptions where
  predictionType : AutocompletionPredictionType
  shouldGenerate : Bool
  llmPfx : List Char
  llmSfx : List Char
  stopTokens : List (List Char)
deriving DecidableEq, Repr

/-- `allLinebreakSymbols` from the source: the CRLF and LF line breaks. -/
def allLinebreakSymbols : List (List Char) := [['\x0d', '\n'], ['\n']]

/-- `getCompletionOptions` from the source (LF platform): window the prefix
and suffix to 25 lines, then pick one of the four strategies. -/
def getCompletionOptions (pas : PfxAndSfxInfo) (justAcceptedAutocompletion : Bool) :
    CompletionOptions :=
  let sfxLines := (splitNl pas.sfx).take 25
  let pfxLines := takeLast 25 (splitNl pas.pfx)
  let p := joinNl pfxLines
  let s := joinNl sfxLines
  let isLineEmpty :=
    jsTrim pas.pfxToTheLeftOfCursor = [] ∧ jsTrim pas.sfxToTheRightOfCursor = []
  let isLinePfxEmpty := (removeAllWhitespace pas.pfxToTheLeftOfCursor).length = 0
  let isLineSfxEmpty := (removeAllWhitespace pas.sfxToTheRightOfCursor).length = 0
  if justAcceptedAutocompletion ∧ isLineSfxEmpty then
    { predictionType := .multiLineStartOnNextLine, shouldGenerate := true,
      llmPfx := p ++ ['\n'], llmSfx := s, stopTokens := [['\n', '\n']] }
  else if isLineEmpty then
    { predictionType := .singleLineFillMiddle, shouldGenerate := true,
      llmPfx := p, llmSfx := s, stopTokens := allLinebreakSymbols }
  else if (removeAllWhitespace pas.sfxToTheRightOfCursor).length ≤ 3 then
    let sfxLinesIgnoringThisLine := sfxLines.drop 1
    let sfxStringIgnoringThisLine :=
      if sfxLinesIgnoringThisLine.length = 0 then []
      else '\n' :: joinNl sfxLinesIgnoringThisLine
    { predictionType := .singleLineRedoSuffix, shouldGenerate := true,
      llmPfx := p, llmSfx := sfxStringIgnoringThisLine, stopTokens := allLinebreakSymbols }
  else if ¬ isLinePfxEmpty then
    { predictionType := .singleLineFillMiddle, shouldGenerate := true,
      llmPfx := p, llmSfx := s, stopTokens := allLinebreakSymbols }
  else
    { predictionType := .doNotPredict, shouldGenerate := false,
      llmPfx := p, llmSfx := s, stopTokens := [] }

/-- `justAcceptedAutocompletion` as computed by
`_provideInlineCompletionItems`: an acceptance was recorded less than 500ms
ago. -/
def justAcceptedAutocompletion (thisTime lastCompletionAccept : Nat) : Bool :=
  thisTime - lastCompletionAccept < 500

/-- The bracket and quote characters used by the suffix-matchup step of the
postprocessor: the three bracket pairs, angle brackets, backtick and both
quote characters (written with hex escapes where needed). -/
def bracketQuoteChars : List Char :=
  ['\x7b', '\x7d', '(', ')', '[', ']', '<', '>', '\x60', '\x27', '\x22']

/-- `postprocessAutocompletion` from the source (LF platform).  `startIdx0`
is `autocompletionMatchup.startIdx` (nonnegative in every reachable case,
hence a `Nat` here); the four adjustment steps update the mutable
`startIdx`/`endIdx` of the source in order, and the result is the slice
filtered through the bracket-balance truncation. -/
def postprocessAutocompletion (startIdx0 : Nat) (a : Autocompletion)
    (pas : PfxAndSfxInfo) : List Char :=
  let generatedMiddle := a.insertText
  let endIdx0 := generatedMiddle.length
  -- step 1: if the user already typed a space/tab, skip duplicate leading spaces
  let charToLeftOfCursor := pas.pfxToTheLeftOfCursor.getLast?
  let userHasAddedASpace := charToLeftOfCursor = some ' ' ∨ charToLeftOfCursor = some '\t'
  let startIdx1 :=
    match firstIdxWhere (fun c => !(c == '\t' || c == ' ')) (generatedMiddle.drop startIdx0) with
    | some rawFirstNonspaceIdx =>
      if userHasAddedASpace then max startIdx0 (rawFirstNonspaceIdx + startIdx0) else startIdx0
    | none => startIdx0
  -- step 2: on a blank line, drop leading newlines of the generation
  let numStartingNewlines :=
    ((generatedMiddle.drop startIdx1).takeWhile (fun c => c == '\n')).length
  let startIdx2 :=
    if jsTrim pas.pfxToTheLeftOfCursor = [] ∧ jsTrim pas.sfxToTheRightOfCursor = []
        ∧ 0 < numStartingNewlines then
      startIdx1 + numStartingNewlines
    else startIdx1
  -- step 3: single-line-fill-middle against a nonblank line suffix:
  -- complete only up to a matching bracket/quote
  let endIdx1 :=
    if a.type = .singleLineFillMiddle ∧ jsTrim pas.sfxToTheRightOfCursor ≠ [] then
      match lastIdxOfChar ((jsTrim pas.sfxToTheRightOfCursor).headD ' ')
          (generatedMiddle.drop startIdx2) with
      | some rawMatchIndex =>
        let matchIdx := rawMatchIndex + startIdx2
        let matchChar := generatedMiddle.getD matchIdx ' '
        if matchChar ∈ bracketQuoteChars then min endIdx0 matchIdx else endIdx0
      | none => endIdx0
    else endIdx0
  -- step 4: force a single-line completion when there is line prefix text,
  -- no line suffix text, and the generation's first line is nonblank
  let restOfLineToGenerate := (splitNl (generatedMiddle.drop startIdx2)).headD []
  let endIdx2 :=
    if jsTrim pas.pfxToTheLeftOfCursor ≠ [] ∧ jsTrim pas.sfxToTheRightOfCursor = []
        ∧ jsTrim restOfLineToGenerate ≠ [] then
      match firstIdxWhere (fun c => c == '\n') (generatedMiddle.drop startIdx2) with
      | some rawNewlineIdx => min endIdx1 (rawNewlineIdx + startIdx2)
      | none => endIdx1
    else endIdx1
  let completionStr := (generatedMiddle.take endIdx2).drop startIdx2
  getStringUpToUnbalancedClosingParenthesis completionStr pas.pfx

/-! Request-lifecycle handlers and the service state. -/

/-- The `onFinalMessage` callback of `_provideInlineCompletionItems`: mark
finished, extract the code, process spaces, and prepend a newline for
`multi-line-start-on-next-line` predictions.  `t` is `Date.now()`. -/
def onFinalMessageHandler (t : Nat) (fullText : List Char) (a : Autocompletion) :
    Autocompletion :=
  let text := extractCodeFromRegular fullText 0
  let insert0 := processStartAndEndSpaces text
  let insert1 := if a.type = .multiLineStartOnNextLine then '\n' :: insert0 else insert0
  { a with endTime := some t, status := .finished, insertText := insert1 }

/-- The `onError` callback of `_provideInlineCompletionItems`: mark the
prediction `error` and reject the promise (the Boolean). -/
def onErrorHandler (t : Nat) (a : Autocompletion) : Autocompletion × Bool :=
  ({ a with endTime := some t, status := .error }, true)

/-- The `setTimeout(..., TIMEOUT_TIME)` body of
`_provideInlineCompletionItems`: if the prediction is still pending when the
timeout fires, reject the promise (the Boolean); the record itself is not
modified. -/
def timeoutHandler (a : Autocompletion) : Autocompletion × Bool :=
  if a.status = .pending then (a, true) else (a, false)

/-- A returned inline completion (only the fields the claims mention). -/
structure InlineCompletionItem where
  insertText : List Char
deriving DecidableEq, Repr

/-- The `catch` branch around `await newAutocompletion.llmPromise`: on
rejection (error, abort or timeout) the prediction is deleted from the
cache of the document and no completions are returned. -/
def onLlmPromiseRejected (cache : LRUCache Nat Autocompletion) (a : Autocompletion) :
    LRUCache Nat Autocompletion × List InlineCompletionItem :=
  ((cache.delete a.id).1, [])

/-- The service-level mutable state of `AutocompleteService` used by the
claims: the shared `_autocompletionId` counter and the per-document caches
(`_autocompletionsOfDocument`, a JS object keyed by `docUriStr`). -/
structure AutocompleteServiceState where
  _autocompletionId : Nat
  _autocompletionsOfDocument : List (List Char × LRUCache Nat Autocompletion)

/-- JS object property assignment for the document-cache map. -/
def assocSet (m : List (List Char × LRUCache Nat Autocompletion)) (k : List Char)
    (v : LRUCache Nat Autocompletion) : List (List Char × LRUCache Nat Autocompletion) :=
  if m.any (fun p => p.1 = k) then m.map (fun p => if p.1 = k then (k, v) else p)
  else m ++ [(k, v)]

/-- The prediction-creation fragment of `_provideInlineCompletionItems`
(initialize the cache of the document when missing; build `newAutocompletion`
with `id: this._autocompletionId++`; `set` it into the cache).  Returns the
new state and the created record. -/
def createAutocompletion (st : AutocompleteServiceState) (docUriStr : List Char)
    (p s llmP llmS : List Char) (t : Nat) (ptype : AutocompletionPredictionType) :
    AutocompleteServiceState × Autocompletion :=
  let cache :=
    match (st._autocompletionsOfDocument.find? (fun q => q.1 = docUriStr)).map (fun q => q.2) with
    | some c => c
    | none => LRUCache.empty Nat Autocompletion MAX_CACHE_SIZE
  let newAutocompletion : Autocompletion :=
    { id := st._autocompletionId, pfx := p, sfx := s, llmPfx := llmP, llmSfx := llmS,
      startTime := t, endTime := none, status := .pending, type := ptype,
      insertText := [], requestId := none, _newlineCount := 0 }
  let cache1 := (cache.set newAutocompletion.id newAutocompletion).1
  ({ _autocompletionId := st._autocompletionId + 1,
     _autocompletionsOfDocument := assocSet st._autocompletionsOfDocument docUriStr cache1 },
   newAutocompletion)

/-- A sequence of prediction creations, one per requesting document (text
arguments empty: only id assignment is at issue), returning the created
records in order. -/
def runCreations : AutocompleteServiceState → List (List Char) →
    AutocompleteServiceState × List Autocompletion
  | st, [] => (st, [])
  | st, d :: ds =>
    let r1 := createAutocompletion st d [] [] [] [] 0 .doNotPredict
    let r2 := runCreations r1.1 ds
    (r2.1, r1.2 :: r2.2)

/-- A baseline `Autocompletion` record for concrete instances. -/
def baseAuto : Autocompletion :=
  { id := 0, pfx := [], sfx := [], llmPfx := [], llmSfx := [], startTime := 0,
    endTime := none, status := .finished, type := .doNotPredict, insertText := [],
    requestId := none, _newlineCount := 0 }

/-- Concrete context: prefix `x`, line suffix `)`. -/
def pasParen : PfxAndSfxInfo :=
  { pfx := ("x".data), sfx := (")".data), pfxLines := [("x".data)], sfxLines := [(")".data)],
    pfxToTheLeftOfCursor := ("x".data), sfxToTheRightOfCursor := (")".data) }

/-- A concrete `single-line-fill-middle` prediction with insertion
`foo(a)`. -/
def autoFillMiddleParen : Autocompletion :=
  { baseAuto with type := .singleLineFillMiddle, insertText := ("foo(a)".data) }

/-- The 25-line windowed model prefix computed by `getCompletionOptions`. -/
def windowedPfx (p : List Char) : List Char :=
  joinNl (takeLast 25 (splitNl p))

/-- Concrete context with empty line suffix for the C6 witness. -/
def pasEmptySfx : PfxAndSfxInfo :=
  { pfx := ("const x = 1;".data), sfx := [], pfxLines := [("const x = 1;".data)],
    sfxLines := [[]], pfxToTheLeftOfCursor := ("const x = 1;".data),
    sfxToTheRightOfCursor := [] }

/-! Helper lemmas, then the claim theorems. -/

theorem isPrefixOf_append_self (l r : List Char) : l.isPrefixOf (l ++ r) = true := by
  induction l with
  | nil => simp [List.isPrefixOf]
  | cons c t ih => simp [List.isPrefixOf, ih]

theorem indexOfSub_append_self (pat rest : List Char) :
    indexOfSub pat (pat ++ rest) = some 0 := by
  cases pat with
  | nil => simp [indexOfSub, indexOfSubGo]; cases rest <;> simp [indexOfSubGo, List.isPrefixOf]
  | cons c t => simp [indexOfSub, indexOfSubGo, isPrefixOf_append_self]

/-- C1: for every stored prediction, matching it up against exactly its own
stored prefix succeeds and yields `startIndex = 0`, `startLine = 0` (and
`startCharacter = 0`). -/
theorem c1_matchup_roundtrip (a : Autocompletion) :
    getAutocompletionMatchup a.pfx a =
      some { startLine := 0, startCharacter := 0, startIdx := 0 } := by
  unfold getAutocompletionMatchup
  simp [isPrefixOf_append_self, indexOfSub_append_self, getIndex, joinNl]

theorem stackAfterScan_nil (st : List Char) : stackAfterScan st [] = some st := rfl

theorem stackAfterScan_cons (st : List Char) (c : Char) (l : List Char) :
    stackAfterScan st (c :: l) = (stepStack st c).bind (fun st2 => stackAfterScan st2 l) := by
  simp [stackAfterScan, List.foldlM_cons]

theorem isUnbal_succ (st : List Char) (c : Char) (rest : List Char) (i : Nat) :
    isUnbalancedCloserAt st (c :: rest) (i + 1) =
      (match stepStack st c with
       | none => false
       | some st2 => isUnbalancedCloserAt st2 rest i) := by
  unfold isUnbalancedCloserAt
  rw [List.getD_cons_succ, List.take_succ_cons, stackAfterScan_cons]
  cases h : stepStack st c <;> simp

theorem isUnbal_zero (st : List Char) (c : Char) (rest : List Char) :
    isUnbalancedCloserAt st (c :: rest) 0 =
      (isCloser c &&
        match st with
        | [] => true
        | t :: _ => !(t == pairOf c)) := by
  unfold isUnbalancedCloserAt
  rw [List.getD_cons_zero, List.take_zero, stackAfterScan_nil]

theorem opener_not_closer (c : Char) (h : isOpener c = true) : isCloser c = false := by
  simp only [isOpener, Bool.or_eq_true, beq_iff_eq] at h
  rcases h with (rfl | rfl) | rfl <;> decide

theorem goScan_eq_find? (s : List Char) : ∀ st : List Char,
    goScan st s = (List.range s.length).find? (isUnbalancedCloserAt st s) := by
  induction s with
  | nil => intro st; rfl
  | cons c rest ih =>
    intro st
    rw [List.length_cons, List.range_succ_eq_map, List.find?_cons]
    have hshift : ∀ st2 : List Char, stepStack st c = some st2 →
        ((List.range rest.length).map Nat.succ).find?
            (isUnbalancedCloserAt st (c :: rest)) =
          (goScan st2 rest).map (· + 1) := by
      intro st2 hstep
      rw [List.find?_map]
      have hcomp : (isUnbalancedCloserAt st (c :: rest)) ∘ Nat.succ =
          isUnbalancedCloserAt st2 rest := by
        funext i
        simp only [Function.comp_apply, Nat.succ_eq_add_one, isUnbal_succ, hstep]
      rw [hcomp, ih st2]
    by_cases hop : isOpener c = true
    · have hclF : isCloser c = false := opener_not_closer c hop
      have hp0 : isUnbalancedCloserAt st (c :: rest) 0 = false := by
        rw [isUnbal_zero, hclF, Bool.false_and]
      rw [hp0]
      have hstep : stepStack st c = some (c :: st) := by simp [stepStack, hop]
      rw [hshift (c :: st) hstep]
      simp [goScan, hop]
    · have hopF : isOpener c = false := by
        cases h : isOpener c
        · rfl
        · exact absurd h hop
      by_cases hclo : isCloser c = true
      · match st with
        | [] =>
          have hp0 : isUnbalancedCloserAt ([] : List Char) (c :: rest) 0 = true := by
            rw [isUnbal_zero, hclo]
            rfl
          rw [hp0]
          simp [goScan, hopF, hclo]
        | t :: st2 =>
          by_cases hpair : (t == pairOf c) = true
          · have hp0 : isUnbalancedCloserAt (t :: st2) (c :: rest) 0 = false := by
              rw [isUnbal_zero, hclo]
              simp [hpair]
            rw [hp0]
            have hstep : stepStack (t :: st2) c = some st2 := by
              simp [stepStack, hopF, hclo, hpair]
            rw [hshift st2 hstep]
            simp [goScan, hopF, hclo, hpair]
          · have hpairF : (t == pairOf c) = false := by
              cases h : (t == pairOf c)
              · rfl
              · exact absurd h hpair
            have hp0 : isUnbalancedCloserAt (t :: st2) (c :: rest) 0 = true := by
              rw [isUnbal_zero, hclo]
              simp [hpairF]
            rw [hp0]
            simp [goScan, hopF, hclo, hpairF]
      · have hclF : isCloser c = false := by
          cases h : isCloser c
          · rfl
          · exact absurd h hclo
        have hp0 : isUnbalancedCloserAt st (c :: rest) 0 = false := by
          rw [isUnbal_zero, hclF, Bool.false_and]
        rw [hp0]
        have hstep : stepStack st c = some st := by
          simp [stepStack, hopF, hclF]
        rw [hshift st hstep]
        simp [goScan, hopF, hclF]

/-- C2: the source bracket truncation equals the spec description —
truncate at the first closing bracket that is unbalanced after seeding the
depth stack with the prefix brackets (from its first opener onward),
unchanged if no unbalanced closer exists; and on the spec example, with
prefix `if (x) {` and insertion `return 1; } } else {`, it truncates at
the second `}` (the first `}` is balanced by the prefix `{`). -/
theorem c2_bracket_truncation :
    (∀ pfx s : List Char,
        getStringUpToUnbalancedClosingParenthesis s pfx =
          specTruncateAtFirstUnbalancedCloser pfx s) ∧
      getStringUpToUnbalancedClosingParenthesis ("return 1; \x7d \x7d else \x7b".data)
          ("if (x) \x7b".data) =
        ("return 1; \x7d ".data) := by
  constructor
  · intro pfx s
    unfold getStringUpToUnbalancedClosingParenthesis specTruncateAtFirstUnbalancedCloser
    rw [goScan_eq_find?]
  · decide

theorem lastIdxOfChar_lt_length (c : Char) :
    ∀ (s : List Char) (m : Nat), lastIdxOfChar c s = some m → m < s.length := by
  intro s
  induction s with
  | nil => intro m h; simp [lastIdxOfChar] at h
  | cons x rest ih =>
    intro m h
    unfold lastIdxOfChar at h
    cases hr : lastIdxOfChar c rest with
    | some i =>
      rw [hr] at h
      have hm : m = i + 1 := by injection h with h2; omega
      have := ih i hr
      simp [hm]
      omega
    | none =>
      rw [hr] at h
      by_cases hx : x = c
      · rw [if_pos hx] at h
        have hm : m = 0 := by injection h with h2; omega
        simp [hm]
      · rw [if_neg hx] at h
        exact absurd h (by simp)

/-- C3 (amended): the backward-search truncation step applies to
`single-line-fill-middle` predictions (not `single-line-redo-suffix`): with a
nonblank line suffix, no space/tab immediately left of the cursor, and the
last occurrence of the first character of the trimmed suffix at position `m`
of the insertion being a bracket/quote, the postprocessed completion is the
insertion truncated at `m` (provided the truncated text has no unbalanced
closer against the prefix). -/
theorem c3_fill_middle_suffix_truncation (a : Autocompletion) (pas : PfxAndSfxInfo) (m : Nat)
    (htype : a.type = .singleLineFillMiddle)
    (hsuf : jsTrim pas.sfxToTheRightOfCursor ≠ [])
    (hnospace : ¬ (pas.pfxToTheLeftOfCursor.getLast? = some ' '
        ∨ pas.pfxToTheLeftOfCursor.getLast? = some '\t'))
    (hm : lastIdxOfChar ((jsTrim pas.sfxToTheRightOfCursor).headD ' ') a.insertText = some m)
    (hbq : a.insertText.getD m ' ' ∈ bracketQuoteChars)
    (hbal : getStringUpToUnbalancedClosingParenthesis (a.insertText.take m) pas.pfx
      = a.insertText.take m) :
    postprocessAutocompletion 0 a pas = a.insertText.take m := by
  have hmlt : m < a.insertText.length := lastIdxOfChar_lt_length _ _ _ hm
  have h1F : (pas.pfxToTheLeftOfCursor.getLast? = some ' '
      ∨ pas.pfxToTheLeftOfCursor.getLast? = some '\t') = False := eq_false hnospace
  have h2F : (jsTrim pas.sfxToTheRightOfCursor = []) = False := eq_false hsuf
  have h3T : (a.type = AutocompletionPredictionType.singleLineFillMiddle) = True := eq_true htype
  have h4T : (jsTrim pas.sfxToTheRightOfCursor ≠ []) = True := eq_true hsuf
  unfold postprocessAutocompletion
  simp only [List.drop_zero]
  cases h1 : firstIdxWhere (fun c => !(c == '\t' || c == ' ')) a.insertText
  all_goals
    simp only [h1, h1F, h2F, h3T, h4T, if_false, if_true, false_and, and_false, true_and,
      and_true, List.drop_zero, hm, Nat.add_zero]
    rw [if_pos hbq, Nat.min_eq_right (Nat.le_of_lt hmlt)]
    exact hbal

/-- C3 (counterexample): a `single-line-redo-suffix` prediction with the
nonblank line suffix `)` whose insertion is `foo(a)b`.  The backward search
of the claim finds the bracket `)` at index 5, so the claim predicts
truncation to `foo(a`; the code leaves the insertion whole (`foo(a)b`),
because the truncation branch only fires for `single-line-fill-middle`. -/
theorem c3_counterexample :
    postprocessAutocompletion 0
        { baseAuto with type := .singleLineRedoSuffix, insertText := ("foo(a)b".data) }
        pasParen = ("foo(a)b".data) ∧
      lastIdxOfChar ')' ("foo(a)b".data) = some 5 ∧
      ("foo(a)b".data) ≠ (("foo(a)b".data).take 5) := by
  refine ⟨by decide, by decide, by decide⟩

/-- C3 witness: the amended theorem applied at a concrete
`single-line-fill-middle` prediction. -/
theorem c3_fill_middle_suffix_truncation_witness :
    autoFillMiddleParen.type = AutocompletionPredictionType.singleLineFillMiddle ∧
      jsTrim pasParen.sfxToTheRightOfCursor ≠ [] ∧
      ¬ (pasParen.pfxToTheLeftOfCursor.getLast? = some ' '
          ∨ pasParen.pfxToTheLeftOfCursor.getLast? = some '\t') ∧
      postprocessAutocompletion 0 autoFillMiddleParen pasParen
        = (autoFillMiddleParen.insertText.take 5) :=
  ⟨by decide, by decide, by decide,
    c3_fill_middle_suffix_truncation autoFillMiddleParen pasParen 5
      (by decide) (by decide) (by decide) (by decide) (by decide) (by decide)⟩

theorem mapHas_of_find?_none {K V : Type} [DecidableEq K] (items : List (K × V)) (k : K)
    (h : items.find? (fun p => p.1 = k) = none) : mapHas items k = false := by
  induction items with
  | nil => rfl
  | cons p rest ih =>
    rw [List.find?_cons] at h
    by_cases hp : (p.1 = k)
    · simp [hp] at h
    · simp only [mapHas, List.any_cons]
      have hrest := ih (by simpa [hp] using h)
      simp [hp, mapHas] at hrest ⊢
      exact hrest

theorem mapHas_mapDelete_self {K V : Type} [DecidableEq K] (items : List (K × V)) (k : K) :
    mapHas (mapDelete items k) k = false := by
  induction items with
  | nil => rfl
  | cons p rest ih =>
    by_cases hp : (p.1 = k)
    · simp only [mapDelete] at ih ⊢
      simp [hp, ih]
    · simp only [mapDelete, mapHas] at ih ⊢
      simp [hp, ih]

theorem lruDelete_not_has {K V : Type} [DecidableEq K] (c : LRUCache K V) (k : K) :
    ((c.delete k).1).has k = false := by
  unfold LRUCache.delete
  cases h : mapGet c.items k with
  | some v => simp [LRUCache.has, mapHas_mapDelete_self c.items k]
  | none =>
    have : c.items.find? (fun p => p.1 = k) = none := by
      unfold mapGet at h
      cases hf : c.items.find? (fun p => p.1 = k)
      · rfl
      · rw [hf] at h; simp at h
    simp [LRUCache.has, mapHas_of_find?_none c.items k this]

/-- C4 (counterexample): on a pending prediction the timeout body fires the
rejection but leaves `status` untouched — the status does not transition to
`error` as the claim states. -/
theorem c4_counterexample :
    (timeoutHandler { baseAuto with status := .pending }).2 = true ∧
      (timeoutHandler { baseAuto with status := .pending }).1.status
        ≠ AutocompletionStatus.error := by
  refine ⟨by decide, by decide⟩

/-- C4 (amended): when the fixed 60-second timeout fires while the
prediction is still pending, the promise is rejected and the catch path
evicts the prediction from the cache and returns no completions — but the
status of the prediction remains `pending`; only the `onError` callback
marks `error`. -/
theorem c4_timeout_rejects_without_error (a : Autocompletion)
    (cache : LRUCache Nat Autocompletion) (t : Nat) (h : a.status = .pending) :
    (timeoutHandler a).2 = true ∧
      (timeoutHandler a).1.status = .pending ∧
      (onLlmPromiseRejected cache a).2 = [] ∧
      ((onLlmPromiseRejected cache a).1.has a.id) = false ∧
      (onErrorHandler t a).1.status = .error := by
  refine ⟨?_, ?_, rfl, ?_, rfl⟩
  · simp [timeoutHandler, h]
  · simp [timeoutHandler, h]
  · exact lruDelete_not_has cache a.id

/-- C4 witness: the amended theorem at a concrete pending prediction and an
empty document cache. -/
theorem c4_timeout_rejects_without_error_witness :
    (({ baseAuto with status := .pending } : Autocompletion).status
        = AutocompletionStatus.pending) ∧
      (timeoutHandler { baseAuto with status := .pending }).2 = true ∧
      (timeoutHandler { baseAuto with status := .pending }).1.status = .pending ∧
      (onLlmPromiseRejected (LRUCache.empty Nat Autocompletion 20)
          { baseAuto with status := .pending }).2 = [] ∧
      ((onLlmPromiseRejected (LRUCache.empty Nat Autocompletion 20)
          { baseAuto with status := .pending }).1.has
        ({ baseAuto with status := .pending } : Autocompletion).id) = false ∧
      (onErrorHandler 3 { baseAuto with status := .pending }).1.status = .error :=
  ⟨by decide,
    c4_timeout_rejects_without_error { baseAuto with status := .pending }
      (LRUCache.empty Nat Autocompletion 20) 3 (by decide)⟩

/-- C7 (counterexample): the raw insertion `  foo()  ` (two spaces on each
side) postprocesses to ` foo() ` (one space on each side) — the single
trailing space is kept, not dropped, so the claimed value ` foo()` with no
trailing space is wrong. -/
theorem c7_counterexample :
    processStartAndEndSpaces ("  foo()  ".data) = (" foo() ".data) ∧
      (" foo() ".data) ≠ (" foo()".data) := by
  refine ⟨by decide, by decide⟩

/-- C7 (amended): the whitespace-preservation step keeps exactly one leading
space if the (fence-extracted) text had a leading space and exactly one
trailing space if it had a trailing one, trimming all other leading/trailing
whitespace; in particular `  foo()  ` postprocesses to ` foo() `. -/
theorem c7_space_preservation (s : List Char)
    (h : extractCodeFromRegular s s.length = s) :
    processStartAndEndSpaces s =
        (if s.head? = some ' ' then [' '] else []) ++ jsTrim s
          ++ (if s.getLast? = some ' ' then [' '] else []) ∧
      processStartAndEndSpaces ("  foo()  ".data) = (" foo() ".data) := by
  constructor
  · unfold processStartAndEndSpaces
    rw [h]
  · decide

/-- C7 witness: the amended theorem at the spec's own example string. -/
theorem c7_space_preservation_witness :
    extractCodeFromRegular ("  foo()  ".data) (("  foo()  ".data).length)
        = ("  foo()  ".data) ∧
      (processStartAndEndSpaces ("  foo()  ".data) =
        (if ("  foo()  ".data).head? = some ' ' then [' '] else [])
          ++ jsTrim ("  foo()  ".data)
          ++ (if ("  foo()  ".data).getLast? = some ' ' then [' '] else []) ∧
      processStartAndEndSpaces ("  foo()  ".data) = (" foo() ".data)) :=
  ⟨by decide, c7_space_preservation ("  foo()  ".data) (by decide)⟩

/-- C8: the extractor's prefix and suffix always concatenate back to the
LF-normalized buffer text; but on the Windows platform (CRLF `_ln`) the
line lists are produced by splitting the LF-normalized text at CRLF, so for
buffer `a\nb` and offset 3 the prefix lines come out as the single unsplit
line, not the two LF-split lines the claim requires. -/
theorem c8_extractor_lf_mismatch :
    (∀ (ln fullText : List Char) (off : Nat),
        (getPfxAndSfxInfo ln fullText off).pfx ++ (getPfxAndSfxInfo ln fullText off).sfx
          = fullText) ∧
      (getPfxAndSfxInfo ("\x0d\n".data) ("a\nb".data) 3).pfxLines = [("a\nb".data)] ∧
      splitOnSep ("\n".data) ("a\nb".data) = [("a".data), ("b".data)] ∧
      ([("a\nb".data)] : List (List Char)) ≠ [("a".data), ("b".data)] := by
  refine ⟨?_, by decide, by decide, by decide⟩
  intro ln fullText off
  simp [getPfxAndSfxInfo]

theorem mapHas_eq_false_of_not_mem {K V : Type} [DecidableEq K] (items : List (K × V))
    (k : K) (h : k ∉ items.map Prod.fst) : mapHas items k = false := by
  induction items with
  | nil => rfl
  | cons p rest ih =>
    simp only [List.map_cons, List.mem_cons] at h
    push_neg at h
    have hrest := ih h.2
    have hp : ¬ (p.1 = k) := fun hc => h.1 hc.symm
    simp only [mapHas, List.any_cons] at hrest ⊢
    simp [hp, hrest]

theorem mapHas_cons_false {K V : Type} [DecidableEq K] (p : K × V) (rest : List (K × V))
    (k : K) (h : mapHas (p :: rest) k = false) : mapHas rest k = false := by
  simp only [mapHas, List.any_cons, Bool.or_eq_false_iff] at h
  exact h.2

theorem mapSet_fresh {K V : Type} [DecidableEq K] (items : List (K × V)) (k : K) (v : V)
    (h : mapHas items k = false) : mapSet items k v = items ++ [(k, v)] := by
  unfold mapSet
  rw [h]
  simp

theorem mapDelete_no_match {K V : Type} [DecidableEq K] (items : List (K × V)) (k : K)
    (h : mapHas items k = false) : mapDelete items k = items := by
  induction items with
  | nil => rfl
  | cons p rest ih =>
    have hp : ¬ (p.1 = k) := by
      intro hc
      simp [mapHas, hc] at h
    have hrest := ih (mapHas_cons_false p rest k h)
    simp only [mapDelete] at hrest ⊢
    simp [hp, hrest]

theorem lruSet_fresh {K V : Type} [DecidableEq K] (c : LRUCache K V) (k : K) (v : V)
    (hfresh : mapHas c.items k = false) (hroom : c.items.length < c.maxSize) :
    c.set k v = ({ c with items := c.items ++ [(k, v)], keyOrder := c.keyOrder ++ [k] }, []) := by
  unfold LRUCache.set
  rw [hfresh]
  simp only [Bool.false_eq_true, if_false, if_neg (Nat.not_le_of_lt hroom)]
  rw [mapSet_fresh c.items k v hfresh]

theorem lruSetMany_append {K V : Type} [DecidableEq K] (xs : List (K × V)) :
    ∀ (c : LRUCache K V) (ys : List (K × V)),
      c.setMany (xs ++ ys)
        = (((c.setMany xs).1.setMany ys).1,
            (c.setMany xs).2 ++ ((c.setMany xs).1.setMany ys).2) := by
  induction xs with
  | nil => intro c ys; simp [LRUCache.setMany]
  | cons x xs ih =>
    intro c ys
    rw [List.cons_append]
    show LRUCache.setMany c (x :: (xs ++ ys)) = _
    simp only [LRUCache.setMany]
    rw [ih]
    simp [List.append_assoc]

theorem lruSetMany_fill {K V : Type} [DecidableEq K] (N : Nat) :
    ∀ (l m : List (K × V)), ((m ++ l).map Prod.fst).Nodup → m.length + l.length ≤ N →
    LRUCache.setMany { items := m, keyOrder := m.map Prod.fst, maxSize := N } l
      = ({ items := m ++ l, keyOrder := (m ++ l).map Prod.fst, maxSize := N }, []) := by
  intro l
  induction l with
  | nil =>
    intro m h1 h2
    simp [LRUCache.setMany]
  | cons p ps ih =>
    intro m h1 h2
    have h2' : m.length + ps.length + 1 ≤ N := by
      simp only [List.length_cons] at h2
      omega
    have hfresh : mapHas (m : List (K × V)) p.1 = false := by
      apply mapHas_eq_false_of_not_mem
      intro hmem
      rw [List.map_append, List.nodup_append] at h1
      exact h1.2.2 hmem (by simp)
    have hroom : m.length < N := by omega
    rw [LRUCache.setMany]
    simp only [lruSet_fresh { items := m, keyOrder := m.map Prod.fst, maxSize := N } p.1 p.2
      hfresh hroom]
    have hko : (m.map Prod.fst) ++ [p.1] = (m ++ [p]).map Prod.fst := by simp
    rw [hko]
    rw [ih (m ++ [p]) (by simpa using h1) (by simp; omega)]
    simp

theorem lruSet_evict {K V : Type} [DecidableEq K] (N : Nat) (q p : K × V)
    (rest : List (K × V))
    (hnodup : (((q :: rest) ++ [p]).map Prod.fst).Nodup)
    (hfull : N ≤ rest.length + 1) :
    LRUCache.set { items := q :: rest, keyOrder := (q :: rest).map Prod.fst, maxSize := N }
        p.1 p.2
      = ({ items := rest ++ [p], keyOrder := rest.map Prod.fst ++ [p.1], maxSize := N },
          [q]) := by
  have hfresh : mapHas ((q :: rest) : List (K × V)) p.1 = false := by
    apply mapHas_eq_false_of_not_mem
    intro hmem
    rw [List.map_append, List.nodup_append] at hnodup
    exact hnodup.2.2 hmem (by simp)
  have hq : mapHas rest q.1 = false := by
    apply mapHas_eq_false_of_not_mem
    intro hmem
    have h2 : ((q :: (rest ++ [p])).map Prod.fst).Nodup := by simpa using hnodup
    rw [List.map_cons, List.nodup_cons] at h2
    exact h2.1 (by rw [List.map_append]; exact List.mem_append_left _ hmem)
  have hfresh2 : mapHas rest p.1 = false := mapHas_cons_false q rest p.1 hfresh
  have hget : mapGet ((q :: rest) : List (K × V)) q.1 = some q.2 := by
    simp [mapGet, List.find?_cons]
  have hdel : mapDelete ((q :: rest) : List (K × V)) q.1 = rest := by
    have hrest := mapDelete_no_match rest q.1 hq
    simp only [mapDelete] at hrest ⊢
    simp [hrest]
  unfold LRUCache.set
  simp only [hfresh, Bool.false_eq_true, if_false, List.length_cons,
    if_pos hfull, List.map_cons, List.head?_cons, hget,
    hdel, List.tail_cons, mapSet_fresh rest p.1 p.2 hfresh2]

/-- C5: starting from an empty cache of capacity `N > 0` and performing
`N + 1` `set` calls with pairwise-distinct keys, the cache size never
exceeds `N` at any intermediate point, exactly one entry is evicted — the
first-inserted (least recently used) one — and the disposal callback fires
exactly once, on exactly that entry and before its removal (the disposal
log equals the first inserted pair, and the surviving entries are exactly
the later ones). -/
theorem c5_capacity_eviction {K V : Type} [DecidableEq K] (N : Nat) (l : List (K × V))
    (hN : 0 < N) (hlen : l.length = N + 1) (hnodup : (l.map Prod.fst).Nodup) :
    (∀ i : Nat, ((LRUCache.empty K V N).setMany (l.take i)).1.items.length ≤ N) ∧
      ((LRUCache.empty K V N).setMany l).2 = l.take 1 ∧
      ((LRUCache.empty K V N).setMany l).1.items = l.tail := by
  have hempty : LRUCache.empty K V N
      = { items := ([] : List (K × V)), keyOrder := ([] : List (K × V)).map Prod.fst,
          maxSize := N } := rfl
  have hne : l ≠ [] := by intro h; rw [h] at hlen; simp at hlen
  obtain ⟨q, t, rfl⟩ : ∃ q t, l = q :: t := by
    cases l with
    | nil => exact absurd rfl hne
    | cons q t => exact ⟨q, t, rfl⟩
  have htlen : t.length = N := by simpa using hlen
  obtain ⟨init, p, rfl, hinitlen⟩ : ∃ init p, t = init ++ [p] ∧ init.length = N - 1 := by
    have htne : t ≠ [] := by intro h; rw [h] at htlen; simp at htlen; omega
    refine ⟨t.dropLast, t.getLast htne, (List.dropLast_append_getLast htne).symm, ?_⟩
    simp [htlen]
  have hmain : (LRUCache.empty K V N).setMany (q :: (init ++ [p]))
      = ({ items := (init ++ [p] : List (K × V)), keyOrder := init.map Prod.fst ++ [p.1],
            maxSize := N }, [q]) := by
    have hsplit : (q :: (init ++ [p]) : List (K × V)) = (q :: init) ++ [p] := by simp
    have hnodupQInit : ((([] : List (K × V)) ++ (q :: init)).map Prod.fst).Nodup := by
      simp only [List.nil_append]
      have hsub : ((q :: init).map Prod.fst).Sublist ((q :: (init ++ [p])).map Prod.fst) := by
        apply List.Sublist.map
        exact List.Sublist.cons₂ q (List.sublist_append_left init [p])
      exact hnodup.sublist hsub
    rw [hsplit, hempty, lruSetMany_append (q :: init)]
    rw [lruSetMany_fill N (q :: init) ([] : List (K × V)) hnodupQInit
      (by simp; omega)]
    simp only [List.nil_append, LRUCache.setMany]
    rw [lruSet_evict N q p init (by simpa using hnodup) (by omega)]
    simp [LRUCache.setMany]
  refine ⟨?_, ?_, ?_⟩
  · intro i
    by_cases hi : i ≤ N
    · have htake : ((q :: (init ++ [p])).take i).length = i := by
        rw [List.length_take]
        simp only [hlen]
        omega
      have hnodupi : ((((q :: (init ++ [p])).take i)).map Prod.fst).Nodup := by
        rw [List.map_take]
        exact hnodup.sublist (List.take_sublist _ _)
      rw [hempty,
        lruSetMany_fill N ((q :: (init ++ [p])).take i) ([] : List (K × V))
          (by simpa using hnodupi) (by simp [htake]; omega)]
      simp [htake]
      omega
    · have hall : (q :: (init ++ [p])).take i = q :: (init ++ [p]) :=
        List.take_of_length_le (by rw [hlen]; omega)
      rw [hall, hmain]
      simp
      omega
  · rw [hmain]
    simp
  · rw [hmain]
    simp

/-- C5 witness: capacity 2, three distinct keys. -/
theorem c5_capacity_eviction_witness :
    0 < 2 ∧ ([(0, 10), (1, 11), (2, 12)] : List (Nat × Nat)).length = 2 + 1 ∧
      (([(0, 10), (1, 11), (2, 12)] : List (Nat × Nat)).map Prod.fst).Nodup ∧
      ((∀ i : Nat,
          ((LRUCache.empty Nat Nat 2).setMany
            (([(0, 10), (1, 11), (2, 12)] : List (Nat × Nat)).take i)).1.items.length ≤ 2) ∧
        ((LRUCache.empty Nat Nat 2).setMany
            ([(0, 10), (1, 11), (2, 12)] : List (Nat × Nat))).2
          = ([(0, 10), (1, 11), (2, 12)] : List (Nat × Nat)).take 1 ∧
        ((LRUCache.empty Nat Nat 2).setMany
            ([(0, 10), (1, 11), (2, 12)] : List (Nat × Nat))).1.items
          = ([(0, 10), (1, 11), (2, 12)] : List (Nat × Nat)).tail) :=
  ⟨by decide, by decide, by decide,
    c5_capacity_eviction 2 [(0, 10), (1, 11), (2, 12)] (by decide) (by decide) (by decide)⟩

theorem mapGet_cons {K V : Type} [DecidableEq K] (p : K × V) (rest : List (K × V))
    (k : K) :
    mapGet (p :: rest) k = if p.1 = k then some p.2 else mapGet rest k := by
  by_cases hp : (p.1 = k) <;> simp [mapGet, List.find?_cons, hp]

theorem mapGet_mapReplace_self {K V : Type} [DecidableEq K] (items : List (K × V))
    (k : K) (v : V) (h : mapHas items k = true) :
    mapGet (items.map (fun p => if p.1 = k then (k, v) else p)) k = some v := by
  induction items with
  | nil => simp [mapHas] at h
  | cons p rest ih =>
    rw [List.map_cons]
    by_cases hp : (p.1 = k)
    · rw [if_pos hp, mapGet_cons]
      simp
    · have hrest : mapHas rest k = true := by simpa [mapHas, hp] using h
      rw [if_neg hp, mapGet_cons, if_neg hp]
      exact ih hrest

theorem mapGet_mapReplace_ne {K V : Type} [DecidableEq K] (items : List (K × V))
    (k k2 : K) (v : V) (hne : k2 ≠ k) :
    mapGet (items.map (fun p => if p.1 = k then (k, v) else p)) k2 = mapGet items k2 := by
  induction items with
  | nil => rfl
  | cons p rest ih =>
    rw [List.map_cons, mapGet_cons p rest k2]
    by_cases hp : (p.1 = k)
    · rw [if_pos hp, mapGet_cons, if_neg (fun hc => hne hc.symm),
        if_neg (fun hc : p.1 = k2 => hne (hp ▸ hc).symm)]
      exact ih
    · rw [if_neg hp, mapGet_cons]
      by_cases hp2 : (p.1 = k2)
      · rw [if_pos hp2, if_pos hp2]
      · rw [if_neg hp2, if_neg hp2]
        exact ih

theorem mapFst_mapReplace {K V : Type} [DecidableEq K] (items : List (K × V))
    (k : K) (v : V) :
    (items.map (fun p => if p.1 = k then (k, v) else p)).map Prod.fst
      = items.map Prod.fst := by
  induction items with
  | nil => rfl
  | cons p rest ih =>
    by_cases hp : (p.1 = k)
    · simp [hp, ih]
    · simp [hp, ih]

/-- C10: calling `set` with a key already present — even at full capacity —
disposes nothing and evicts nothing: the key list of the map is unchanged
(same keys, same positions, same size), the value at the given key is
replaced, the value at every other key is untouched, and the key moves to the
most-recently-used end of the recency list. -/
theorem c10_set_existing_key {K V : Type} [DecidableEq K] (c : LRUCache K V) (k : K)
    (v : V) (h : mapHas c.items k = true) :
    (c.set k v).2 = [] ∧
      (c.set k v).1.items.map Prod.fst = c.items.map Prod.fst ∧
      (c.set k v).1.items.length = c.items.length ∧
      mapGet (c.set k v).1.items k = some v ∧
      (∀ k2, k2 ≠ k → mapGet (c.set k v).1.items k2 = mapGet c.items k2) ∧
      (c.set k v).1.keyOrder = c.keyOrder.filter (fun x => !(x = k)) ++ [k] ∧
      (c.set k v).1.maxSize = c.maxSize := by
  unfold LRUCache.set
  simp only [h, if_true, mapSet]
  and_intros
  · first | rfl | trivial
  · exact mapFst_mapReplace c.items k v
  · simp
  · exact mapGet_mapReplace_self c.items k v h
  · intro k2 hne
    exact mapGet_mapReplace_ne c.items k k2 v hne
  · first | rfl | trivial
  · first | rfl | trivial

/-- C10 witness: a full cache of capacity 2, re-setting key 1. -/
theorem c10_set_existing_key_witness :
    mapHas (({ items := [(1, 10), (2, 20)], keyOrder := [1, 2], maxSize := 2 } :
        LRUCache Nat Nat).items) 1 = true ∧
      ((({ items := [(1, 10), (2, 20)], keyOrder := [1, 2], maxSize := 2 } :
          LRUCache Nat Nat).set 1 99).2 = [] ∧
        (({ items := [(1, 10), (2, 20)], keyOrder := [1, 2], maxSize := 2 } :
            LRUCache Nat Nat).set 1 99).1.items.map Prod.fst
          = (({ items := [(1, 10), (2, 20)], keyOrder := [1, 2], maxSize := 2 } :
              LRUCache Nat Nat).items).map Prod.fst ∧
        (({ items := [(1, 10), (2, 20)], keyOrder := [1, 2], maxSize := 2 } :
            LRUCache Nat Nat).set 1 99).1.items.length
          = (({ items := [(1, 10), (2, 20)], keyOrder := [1, 2], maxSize := 2 } :
              LRUCache Nat Nat).items).length ∧
        mapGet (({ items := [(1, 10), (2, 20)], keyOrder := [1, 2], maxSize := 2 } :
            LRUCache Nat Nat).set 1 99).1.items 1 = some 99 ∧
        (∀ k2, k2 ≠ 1 →
          mapGet (({ items := [(1, 10), (2, 20)], keyOrder := [1, 2], maxSize := 2 } :
              LRUCache Nat Nat).set 1 99).1.items k2
            = mapGet (({ items := [(1, 10), (2, 20)], keyOrder := [1, 2], maxSize := 2 } :
                LRUCache Nat Nat).items) k2) ∧
        (({ items := [(1, 10), (2, 20)], keyOrder := [1, 2], maxSize := 2 } :
            LRUCache Nat Nat).set 1 99).1.keyOrder
          = ({ items := [(1, 10), (2, 20)], keyOrder := [1, 2], maxSize := 2 } :
              LRUCache Nat Nat).keyOrder.filter (fun x => !(x = 1)) ++ [1] ∧
        (({ items := [(1, 10), (2, 20)], keyOrder := [1, 2], maxSize := 2 } :
            LRUCache Nat Nat).set 1 99).1.maxSize
          = ({ items := [(1, 10), (2, 20)], keyOrder := [1, 2], maxSize := 2 } :
              LRUCache Nat Nat).maxSize) :=
  ⟨by decide,
    c10_set_existing_key
      { items := [(1, 10), (2, 20)], keyOrder := [1, 2], maxSize := 2 } 1 99 (by decide)⟩

/-- C9: prediction ids come from the single service-wide counter: however
creation requests interleave across documents, the ids handed out are the
consecutive integers starting at the current counter — globally unique and
strictly increasing in creation order across all documents. -/
theorem c9_globally_ordered_ids (st : AutocompleteServiceState) (docs : List (List Char)) :
    ((runCreations st docs).2.map (fun a => a.id))
        = List.range' st._autocompletionId docs.length 1 ∧
      List.Pairwise (fun i j => i < j) ((runCreations st docs).2.map (fun a => a.id)) := by
  have hmain : ∀ (ds : List (List Char)) (st0 : AutocompleteServiceState),
      ((runCreations st0 ds).2.map (fun a => a.id))
        = List.range' st0._autocompletionId ds.length 1 := by
    intro ds
    induction ds with
    | nil => intro st0; rfl
    | cons d ds ih =>
      intro st0
      simp only [runCreations, createAutocompletion]
      rw [List.map_cons, ih]
      simp [List.range'_succ]
  refine ⟨hmain docs st, ?_⟩
  rw [hmain docs st]
  exact List.pairwise_lt_range' _ _ 1 (by omega)

/-- C6: whenever an acceptance was recorded within the last 500ms and the
whitespace-stripped line suffix is empty, the classifier picks
`multi-line-start-on-next-line` with model prefix the windowed prefix plus a
newline and stop sequence a double newline; and on request success a leading
newline is prepended, so the raw response `return result;` is stored with a
leading newline. -/
theorem c6_multiline_next_line (pas : PfxAndSfxInfo) (a : Autocompletion)
    (now lastAccept t : Nat)
    (hacc : now - lastAccept < 500)
    (hsuf : removeAllWhitespace pas.sfxToTheRightOfCursor = [])
    (htype : a.type = .multiLineStartOnNextLine) :
    (getCompletionOptions pas (justAcceptedAutocompletion now lastAccept)).predictionType
        = .multiLineStartOnNextLine ∧
      (getCompletionOptions pas (justAcceptedAutocompletion now lastAccept)).llmPfx
        = windowedPfx pas.pfx ++ ['\n'] ∧
      (getCompletionOptions pas (justAcceptedAutocompletion now lastAccept)).stopTokens
        = [['\n', '\n']] ∧
      (onFinalMessageHandler t ("return result;".data) a).insertText
        = ("\nreturn result;".data) := by
  have hJ : justAcceptedAutocompletion now lastAccept = true := by
    simp [justAcceptedAutocompletion, hacc]
  have hCond : (justAcceptedAutocompletion now lastAccept = true)
      ∧ (removeAllWhitespace pas.sfxToTheRightOfCursor).length = 0 := by
    exact ⟨hJ, by rw [hsuf]; rfl⟩
  unfold getCompletionOptions
  rw [if_pos hCond]
  refine ⟨rfl, rfl, rfl, ?_⟩
  simp [onFinalMessageHandler, htype]
  decide

/-- C6 witness: the theorem applied just after an acceptance (100ms ago)
with an empty line suffix. -/
theorem c6_multiline_next_line_witness :
    (100 : Nat) - 0 < 500 ∧
      removeAllWhitespace pasEmptySfx.sfxToTheRightOfCursor = [] ∧
      (({ baseAuto with type := .multiLineStartOnNextLine } : Autocompletion).type
        = AutocompletionPredictionType.multiLineStartOnNextLine) ∧
      ((getCompletionOptions pasEmptySfx (justAcceptedAutocompletion 100 0)).predictionType
          = .multiLineStartOnNextLine ∧
        (getCompletionOptions pasEmptySfx (justAcceptedAutocompletion 100 0)).llmPfx
          = windowedPfx pasEmptySfx.pfx ++ ['\n'] ∧
        (getCompletionOptions pasEmptySfx (justAcceptedAutocompletion 100 0)).stopTokens
          = [['\n', '\n']] ∧
        (onFinalMessageHandler 7 ("return result;".data)
            { baseAuto with type := .multiLineStartOnNextLine }).insertText
          = ("\nreturn result;".data)) :=
  ⟨by decide, by decide, by decide,
    c6_multiline_next_line pasEmptySfx { baseAuto with type := .multiLineStartOnNextLine }
      100 0 7 (by decide) (by decide) (by decide)⟩
